import Mathlib

/-!
Verification of the natural-language specification of
`elementary-cellular-automaton` (src/main.c) against the source.

The development has two layers.

* A block-level embedding that mirrors `src/main.c` literally: the automaton
  state is a list of `uint8_t` blocks (naturals, kept `< 2 ^ BLOCK_SIZE` by the
  flip operation's truncation), a `bit_view_t` is a block pointer (modelled as
  an offset from `state_array`) plus a bit position, and `automaton_step` is
  the single-pass in-place loop of lines 93-119.

* A cell-level embedding of the same loop in which the state is the list of
  `STATE_SIZE` booleans and a view is simply a cell index.  The source maps
  cell index `i` to block `i / BLOCK_SIZE`, bit `BLOCK_SIZE - 1 - i % BLOCK_SIZE`
  (lines 97-99 and 113-114); the cell-level loop is the image of the block-level
  loop under that mapping, with the row length `N` (`STATE_SIZE`, fixed to 24 in
  the source) kept as a parameter so that the spec's "for all N ≥ 3" statements
  can be expressed.  The two layers are connected below by `unpack` lemmas.
-/

/-- Total number of cells (`#define STATE_SIZE (3*8)`, src/main.c line 23). -/
def STATE_SIZE : ℕ := 3 * 8

/-- Number of bits in one `uint8_t` block (`#define BLOCK_SIZE 8 * sizeof(block_t)`,
src/main.c line 30). -/
def BLOCK_SIZE : ℕ := 8

/-- Number of blocks (`#define ARRAY_SIZE STATE_SIZE / BLOCK_SIZE + (STATE_SIZE % BLOCK_SIZE != 0)`,
src/main.c line 32). -/
def ARRAY_SIZE : ℕ := STATE_SIZE / BLOCK_SIZE + (if STATE_SIZE % BLOCK_SIZE ≠ 0 then 1 else 0)

/-- One cell (bit) in a block (`bit_view_t`, src/main.c lines 36-39).
`pblock` is the block pointer, modelled as the offset from `state_array`. -/
structure bit_view where
  pblock : ℕ
  position : ℕ
  deriving DecidableEq, Repr

/-- Bit `p` of the natural `b`, computed as the source computes it:
`(b >> p) & 1` interpreted as a boolean (src/main.c line 76). -/
def bitOf (b p : ℕ) : Bool := ((b >>> p) &&& 1) = 1

/-- Reads one bit: `(*(pview->pblock) >> pview->position) & 1`
(`get_bit`, src/main.c lines 73-77).  The state array is the list of block
values; a dereference outside the list is undefined behaviour in C and is
modelled by the default value 0 (see the C10 trace theorem, which proves the
step never dereferences out of range). -/
def get_bit (s : List ℕ) (v : bit_view) : Bool :=
  bitOf (s.getD v.pblock 0) v.position

/-- Flips one bit: `*(pview->pblock) ^= 1 << pview->position`
(`bit_flip`, src/main.c lines 56-59).  The xor is truncated to the block
width, as the C assignment to a `uint8_t` is. -/
def bit_flip (s : List ℕ) (v : bit_view) : List ℕ :=
  s.set v.pblock ((s.getD v.pblock 0 ^^^ (1 <<< v.position)) % 2 ^ BLOCK_SIZE)

/-- If `flip` is true, flips the bit (`conditional_bit_flip`, src/main.c
lines 63-71). -/
def conditional_bit_flip (s : List ℕ) (v : bit_view) (flip : Bool) : List ℕ :=
  if flip then bit_flip s v else s

/-- Looks up the rule for a 3-cell window:
`value = (get_bit(left) << 2) + (get_bit(center) << 1) + get_bit(right);
return pflip_rules[value]` (`evaluate`, src/main.c lines 79-90). -/
def evaluate (s : List ℕ) (l c r : bit_view) (pflip_rules : List Bool) : Bool :=
  pflip_rules.getD (((cond (get_bit s l) 1 0) <<< 2) +
    ((cond (get_bit s c) 1 0) <<< 1) + (cond (get_bit s r) 1 0)) false

/-- The rule table of the source (`RULE110`, src/main.c lines 121-130).
The source passes it to `automaton_step` as `pflip_rules`. -/
def RULE110 : List Bool :=
  [false, true, false, false, false, true, false, true]

/-- The view of cell index `i`: block `i / BLOCK_SIZE`, bit
`BLOCK_SIZE - 1 - (i % BLOCK_SIZE)` — the mapping the source uses for the
initial views (lines 97-99) and for the window advance (lines 113-114). -/
def viewOf (i : ℕ) : bit_view :=
  ⟨i / BLOCK_SIZE, BLOCK_SIZE - 1 - i % BLOCK_SIZE⟩

/-- The cell at index `i` of a block-level state. -/
def cellOf (s : List ℕ) (i : ℕ) : Bool := get_bit s (viewOf i)

/-- The loop state of `automaton_step` (src/main.c lines 97-115): the mutable
state array, the three window views, and the pending result `prev_result`.
After at least one iteration `prev` also holds `curr_result` of the last
executed iteration, which is what the code reads after the loop (line 118). -/
structure BlockLoopState where
  state : List ℕ
  left : bit_view
  center : bit_view
  right : bit_view
  prev : Bool

/-- One iteration of the `automaton_step` loop body for loop counter `i`
(src/main.c lines 104-115): evaluate the window, apply the pending flip to
`left`, then advance the window. -/
def stepIterB (pflip_rules : List Bool) (i : ℕ) (st : BlockLoopState) : BlockLoopState :=
  let curr := evaluate st.state st.left st.center st.right pflip_rules
  let state := conditional_bit_flip st.state st.left st.prev
  { state := state, left := st.center, center := st.right,
    right := ⟨i / BLOCK_SIZE, BLOCK_SIZE - 1 - i % BLOCK_SIZE⟩, prev := curr }

/-- The loop state after `k` executed iterations.  Iteration number `k + 1`
runs with loop counter `i = k + 3`, matching `for (size_t i = 3; ...)`.
The initial state is lines 97-102 of src/main.c: views at cells 0, 1, 2 and
`prev_result = get_bit(&left_view)`. -/
def loopStateB (pflip_rules : List Bool) (s : List ℕ) : ℕ → BlockLoopState
  | 0 => ⟨s, ⟨0, BLOCK_SIZE - 1⟩, ⟨0, BLOCK_SIZE - 2⟩, ⟨0, BLOCK_SIZE - 3⟩,
      get_bit s ⟨0, BLOCK_SIZE - 1⟩⟩
  | k + 1 => stepIterB pflip_rules (k + 3) (loopStateB pflip_rules s k)

/-- The in-place step (`automaton_step`, src/main.c lines 93-119).  The loop
runs for `i = 3, ..., STATE_SIZE`, i.e. `STATE_SIZE - 2` iterations; afterwards
the final pending write is applied to the last `left` view (line 118).  The
value the code reads there, `curr_result`, equals `prev` of the final loop
state because `prev_result = curr_result` is the first advance assignment
(line 110) of the final iteration; the loop always runs (`STATE_SIZE = 24`),
so the uninitialized first value of `curr_result` is never read. -/
def automaton_step (state_array : List ℕ) (pflip_rules : List Bool) : List ℕ :=
  let st := loopStateB pflip_rules state_array (STATE_SIZE - 2)
  conditional_bit_flip st.state st.left st.prev

/-- The cell at index `i` of a cell-level state (a dereference of the packed
bit at `viewOf i`). -/
def getCell (s : List Bool) (i : ℕ) : Bool := s.getD i false

/-- Cell-level image of `bit_flip`: xor-ing the packed bit with 1 negates
the cell. -/
def flipCell (s : List Bool) (i : ℕ) : List Bool := s.set i (!(s.getD i false))

/-- Cell-level image of `conditional_bit_flip`. -/
def condFlipCell (s : List Bool) (i : ℕ) (flip : Bool) : List Bool :=
  if flip then flipCell s i else s

/-- Cell-level image of `evaluate`: the same 3-bit code and table lookup. -/
def evalCell (s : List Bool) (l c r : ℕ) (pflip_rules : List Bool) : Bool :=
  pflip_rules.getD (((cond (getCell s l) 1 0) <<< 2) +
    ((cond (getCell s c) 1 0) <<< 1) + (cond (getCell s r) 1 0)) false

/-- Cell-level loop state: views are cell indices. -/
structure CellLoopState where
  cells : List Bool
  left : ℕ
  center : ℕ
  right : ℕ
  prev : Bool

/-- Cell-level image of `stepIterB`: the window advance
`right_view := view of i` becomes `right := i`. -/
def stepIterC (pflip_rules : List Bool) (i : ℕ) (st : CellLoopState) : CellLoopState :=
  let curr := evalCell st.cells st.left st.center st.right pflip_rules
  let cells := condFlipCell st.cells st.left st.prev
  { cells := cells, left := st.center, center := st.right, right := i, prev := curr }

/-- Cell-level loop state after `k` executed iterations (views start at cells
0, 1, 2 and `prev` at the value of cell 0, as in src/main.c lines 97-102). -/
def loopStateC (pflip_rules : List Bool) (s : List Bool) : ℕ → CellLoopState
  | 0 => ⟨s, 0, 1, 2, getCell s 0⟩
  | k + 1 => stepIterC pflip_rules (k + 3) (loopStateC pflip_rules s k)

/-- Cell-level image of `automaton_step`, with the row length `N`
(`STATE_SIZE`) as a parameter: the loop runs for `i = 3, ..., N`
(`N - 2` iterations) and then the last pending write is applied. -/
def automaton_stepCells (N : ℕ) (pflip_rules : List Bool) (s : List Bool) : List Bool :=
  let st := loopStateC pflip_rules s (N - 2)
  condFlipCell st.cells st.left st.prev

/-- Unpacks a block-level state into its list of `STATE_SIZE` cells. -/
def unpack (s : List ℕ) : List Bool :=
  (List.range STATE_SIZE).map (fun i => cellOf s i)

/-- The flip flag the loop eventually applies to cell `j` of seed state `s`:
cell 0 is flipped by the initial `prev_result = get_bit(&left_view)`
(src/main.c line 102), and every later cell `j` by the rule evaluated, one
iteration earlier, on the pre-step window `(j - 1, j, j + 1)`. -/
def cellFlipFlag (s : List Bool) (pflip_rules : List Bool) (j : ℕ) : Bool :=
  if j = 0 then getCell s 0 else evalCell s (j - 1) j (j + 1) pflip_rules

/-- Follows the spec's words, for the refinement claim C1: "a naive
implementation that computes the full next generation into a fresh buffer
each step, consulting only pre-step values", under the fixed-boundary policy
("cell 0 and cell N−1 ... never change across generations; only cells at
indices 1 .. N-2 are subject to rule evaluation").  The per-cell update is the
program's rule application — the conditional flip of the cell by the table
entry for its pre-step neighborhood — performed on the fresh buffer so that
every read sees pre-step values. -/
def reference_step (N : ℕ) (pflip_rules : List Bool) (s : List Bool) : List Bool :=
  (List.range N).map (fun j =>
    if j = 0 ∨ j = N - 1 then getCell s j
    else xor (getCell s j) (evalCell s (j - 1) j (j + 1) pflip_rules))

/-- The standard rule-110 next-state table, from the spec's words: the
mapping claimed for RuleTable sends each code `left*4 + center*2 + right`
to "the resulting boolean for the center cell's next generation"
(000→0, 001→1, 010→1, 011→1, 100→0, 101→1, 110→1, 111→0). -/
def RULE110_NEXT : List Bool :=
  [false, true, true, true, false, true, true, false]

/-- The spec's render format: each cell as one of two fixed glyphs (`#` for
alive, space for dead), consecutive glyphs separated by exactly one space. -/
def renderRow : List Bool → List Char
  | [] => []
  | [c] => [if c then '#' else ' ']
  | c :: c' :: rest => (if c then '#' else ' ') :: ' ' :: renderRow (c' :: rest)

/-- The while loop of `print_block` (src/main.c lines 137-140): while
`mask > end_mask`, print the glyph of `block & mask` followed by one space
and halve the mask. -/
def print_block_loop (block mask end_mask : ℕ) : List Char :=
  if end_mask < mask then
    (if block &&& mask ≠ 0 then '#' else ' ') :: ' ' ::
      print_block_loop block (mask >>> 1) end_mask
  else []
termination_by mask
decreasing_by
  simp only [Nat.shiftRight_one]
  omega

/-- Prints the first `bits` cells of a block (`print_block`, src/main.c lines
132-142): the loop from mask `1 << (BLOCK_SIZE - 1)` down to
`end_mask = 1 << (BLOCK_SIZE - bits)` exclusive, then the `end_mask` glyph
with no trailing space.  The source's `assert(bits > 0)` holds at both call
sites; the theorems below use `bits = BLOCK_SIZE`. -/
def print_block (block : ℕ) (bits : ℕ) : List Char :=
  print_block_loop block (1 <<< (BLOCK_SIZE - 1)) (1 <<< (BLOCK_SIZE - bits)) ++
    [if block &&& (1 <<< (BLOCK_SIZE - bits)) ≠ 0 then '#' else ' ']

/-- Prints the automaton state (`pretty_print`, src/main.c lines 145-155):
every full block followed by one separating space, then the last block up to
`remaining_bits`, then a newline.  The callee is named `print_as_characters`
in the source; no function of that name is defined anywhere in the
repository — it is identified with `print_block` (src/main.c lines 132-142),
the only candidate, which has exactly the required signature and is otherwise
never called (an evident rename slip; as written the program does not link). -/
def pretty_print (state_array : List ℕ) : List Char :=
  (List.flatten ((List.range (ARRAY_SIZE - 1)).map
    (fun i => print_block (state_array.getD i 0) BLOCK_SIZE ++ [' ']))) ++
  print_block (state_array.getD (ARRAY_SIZE - 1) 0)
    (if STATE_SIZE % BLOCK_SIZE ≠ 0 then STATE_SIZE % BLOCK_SIZE else BLOCK_SIZE) ++
  ['\n']

/-- The view argument of `get_bit` with its possible nullness (`pview` is a
pointer): `none` models a null pointer.  The function's body is
`assert(pview != NULL); return (*(pview->pblock) >> pview->position) & 1;`
(src/main.c lines 73-77): the only assertion is the null check, modelled as
the `none` branch (assertion failure, no value); with any non-null view the
function returns a plain boolean. -/
def get_bit_checked (s : List ℕ) (pview : Option bit_view) : Option Bool :=
  match pview with
  | none => none
  | some v => some (get_bit s v)

/-- `bit_flip` with its null-pointer assertion (src/main.c lines 56-59),
modelled like `get_bit_checked`: the only assertion is `pview != NULL`. -/
def bit_flip_checked (s : List ℕ) (pview : Option bit_view) : Option (List ℕ) :=
  match pview with
  | none => none
  | some v => some (bit_flip s v)

/-- Whether a view denotes a bit inside the `ARRAY_SIZE`-block state array. -/
def bit_view_in_range (v : bit_view) : Bool :=
  v.pblock < ARRAY_SIZE && v.position < BLOCK_SIZE

/-- Block-level loop state instrumented with the list of views whose block
pointer is dereferenced: `evaluate` dereferences its three views through
`get_bit` (src/main.c line 88 via lines 73-77), and `conditional_bit_flip`
dereferences its view through `bit_flip` exactly when its `flip` argument is
true (src/main.c lines 63-71). -/
structure BlockTraceState where
  state : List ℕ
  left : bit_view
  center : bit_view
  right : bit_view
  prev : Bool
  derefs : List bit_view

/-- One instrumented loop iteration: same transition as `stepIterB`, also
recording the dereferences it performs (the three `get_bit` reads of
`evaluate`, and the `bit_flip` write to `left` when `prev_result` is true). -/
def stepIterT (pflip_rules : List Bool) (i : ℕ) (st : BlockTraceState) : BlockTraceState :=
  let curr := evaluate st.state st.left st.center st.right pflip_rules
  let state := conditional_bit_flip st.state st.left st.prev
  { state := state, left := st.center, center := st.right,
    right := ⟨i / BLOCK_SIZE, BLOCK_SIZE - 1 - i % BLOCK_SIZE⟩, prev := curr,
    derefs := st.derefs ++ [st.left, st.center, st.right] ++
      (if st.prev then [st.left] else []) }

/-- Instrumented loop state after `k` iterations; the initial trace holds the
one `get_bit` dereference that computes the initial `prev_result`
(src/main.c line 102). -/
def loopStateT (pflip_rules : List Bool) (s : List ℕ) : ℕ → BlockTraceState
  | 0 => ⟨s, ⟨0, BLOCK_SIZE - 1⟩, ⟨0, BLOCK_SIZE - 2⟩, ⟨0, BLOCK_SIZE - 3⟩,
      get_bit s ⟨0, BLOCK_SIZE - 1⟩, [⟨0, BLOCK_SIZE - 1⟩]⟩
  | k + 1 => stepIterT pflip_rules (k + 3) (loopStateT pflip_rules s k)

/-- All views dereferenced during one call of `automaton_step`: the loop's
dereferences followed by the final pending write (src/main.c line 118),
which dereferences the final `left` view exactly when `curr_result` is true. -/
def automaton_step_derefs (state_array : List ℕ) (pflip_rules : List Bool) : List bit_view :=
  let st := loopStateT pflip_rules state_array (STATE_SIZE - 2)
  st.derefs ++ (if st.prev then [st.left] else [])

/-- The value of `right_view` after the final loop iteration
(`i = STATE_SIZE`), computed at src/main.c lines 113-114 but never
dereferenced. -/
def automaton_step_final_right (state_array : List ℕ) (pflip_rules : List Bool) : bit_view :=
  (loopStateT pflip_rules state_array (STATE_SIZE - 2)).right

/-! ## Basic lemmas about the cell-level operations -/

lemma length_condFlipCell (s : List Bool) (i : ℕ) (b : Bool) :
    (condFlipCell s i b).length = s.length := by
  unfold condFlipCell flipCell
  split <;> simp

lemma getCell_condFlipCell_ne (s : List Bool) (i j : ℕ) (b : Bool) (h : i ≠ j) :
    getCell (condFlipCell s i b) j = getCell s j := by
  unfold condFlipCell flipCell getCell
  split
  · simp [List.getD_eq_getElem?_getD, List.getElem?_set_ne h]
  · rfl

lemma getCell_condFlipCell_self (s : List Bool) (i : ℕ) (b : Bool) (h : i < s.length) :
    getCell (condFlipCell s i b) i = xor (getCell s i) b := by
  unfold condFlipCell flipCell getCell
  cases b
  · simp
  · simp [List.getD_eq_getElem?_getD, List.getElem?_set_self h,
      List.getElem?_eq_getElem h]

lemma evalCell_congr {s t : List Bool} {l c r : ℕ} (pflip_rules : List Bool)
    (hl : getCell s l = getCell t l) (hc : getCell s c = getCell t c)
    (hr : getCell s r = getCell t r) :
    evalCell s l c r pflip_rules = evalCell t l c r pflip_rules := by
  unfold evalCell
  rw [hl, hc, hr]

/-! ## The loop invariant of the in-place step (cell level) -/

/-- Invariant of the `automaton_step` loop after `k` executed iterations:
the window views sit at cells `k`, `k+1`, `k+2`; the pending result is the
flip flag of cell `k`; every cell at index `≥ k` still holds its pre-step
(seed) value; and every cell at index `< k` has already received its final
value, the seed value xor-ed with its flip flag. -/
lemma loopStateC_spec (pflip_rules : List Bool) (s : List Bool) (k : ℕ)
    (hk : k ≤ s.length) :
    (loopStateC pflip_rules s k).cells.length = s.length ∧
    (loopStateC pflip_rules s k).left = k ∧
    (loopStateC pflip_rules s k).center = k + 1 ∧
    (loopStateC pflip_rules s k).right = k + 2 ∧
    (loopStateC pflip_rules s k).prev = cellFlipFlag s pflip_rules k ∧
    (∀ j, k ≤ j → getCell (loopStateC pflip_rules s k).cells j = getCell s j) ∧
    (∀ j, j < k → getCell (loopStateC pflip_rules s k).cells j =
      xor (getCell s j) (cellFlipFlag s pflip_rules j)) := by
  induction k with
  | zero =>
    refine ⟨rfl, rfl, rfl, rfl, ?_, fun j _ => rfl, fun j hj => absurd hj (Nat.not_lt_zero j)⟩
    simp [loopStateC, cellFlipFlag]
  | succ k ih =>
    obtain ⟨ihlen, ihl, ihc, ihr, ihprev, ihsuf, ihpre⟩ := ih (Nat.le_of_succ_le hk)
    set L := loopStateC pflip_rules s k with hL
    have hstep : loopStateC pflip_rules s (k + 1) = stepIterC pflip_rules (k + 3) L := rfl
    have hkl : k < s.length := Nat.lt_of_succ_le hk
    have hcells : ∀ j, getCell (condFlipCell L.cells L.left L.prev) j =
        getCell (condFlipCell L.cells k L.prev) j := by
      intro j; rw [ihl]
    refine ⟨?_, ?_, ?_, ?_, ?_, ?_, ?_⟩
    · rw [hstep]
      show (condFlipCell L.cells L.left L.prev).length = s.length
      rw [length_condFlipCell, ihlen]
    · rw [hstep]; exact ihc
    · rw [hstep]; exact ihr
    · rw [hstep]
      show k + 3 = k + 1 + 2
      omega
    · rw [hstep]
      show evalCell L.cells L.left L.center L.right pflip_rules = _
      rw [ihl, ihc, ihr]
      rw [evalCell_congr pflip_rules (ihsuf k le_rfl) (ihsuf (k + 1) (Nat.le_succ k))
        (ihsuf (k + 2) (by omega))]
      simp [cellFlipFlag]
    · intro j hj
      rw [hstep]
      show getCell (condFlipCell L.cells L.left L.prev) j = _
      rw [hcells, getCell_condFlipCell_ne _ _ _ _ (by omega)]
      exact ihsuf j (by omega)
    · intro j hj
      rw [hstep]
      show getCell (condFlipCell L.cells L.left L.prev) j = _
      rw [hcells]
      rcases Nat.lt_or_ge j k with hjk | hjk
      · rw [getCell_condFlipCell_ne _ _ _ _ (by omega)]
        exact ihpre j hjk
      · have hjeq : j = k := by omega
        subst hjeq
        rw [getCell_condFlipCell_self _ _ _ (by rw [ihlen]; exact hkl)]
        rw [ihsuf j le_rfl, ihprev]

/-- The in-place step preserves the length of the state. -/
lemma length_automaton_stepCells (N : ℕ) (pflip_rules : List Bool) (s : List Bool)
    (hs : s.length = N) :
    (automaton_stepCells N pflip_rules s).length = N := by
  have h := loopStateC_spec pflip_rules s (N - 2) (by omega)
  unfold automaton_stepCells
  rw [length_condFlipCell, h.1, hs]

/-- Full characterization of the in-place step, cell by cell: cell 0 is
xor-ed with its own seed value (hence cleared), every interior cell
`1 ≤ j ≤ N - 2` is xor-ed with the table entry of its pre-step neighborhood,
and every cell from `N - 1` on is untouched. -/
lemma getCell_automaton_stepCells (N : ℕ) (pflip_rules : List Bool) (s : List Bool)
    (hN : 3 ≤ N) (hs : s.length = N) (j : ℕ) :
    getCell (automaton_stepCells N pflip_rules s) j =
      if j = 0 then false
      else if j ≤ N - 2 then
        xor (getCell s j) (evalCell s (j - 1) j (j + 1) pflip_rules)
      else getCell s j := by
  obtain ⟨hlen, hleft, -, -, hprev, hsuf, hpre⟩ :=
    loopStateC_spec pflip_rules s (N - 2) (by omega)
  set L := loopStateC pflip_rules s (N - 2) with hL
  have hstep : automaton_stepCells N pflip_rules s = condFlipCell L.cells L.left L.prev := rfl
  have hcells : ∀ i, getCell (condFlipCell L.cells L.left L.prev) i =
      getCell (condFlipCell L.cells (N - 2) L.prev) i := by
    intro i; rw [hleft]
  rcases Nat.eq_zero_or_pos j with hj0 | hjpos
  · subst hj0
    rw [hstep, hcells, getCell_condFlipCell_ne _ _ _ _ (by omega),
      hpre 0 (by omega)]
    simp [cellFlipFlag]
  · rcases Nat.lt_or_ge j (N - 2) with hjlt | hjge
    · rw [hstep, hcells, getCell_condFlipCell_ne _ _ _ _ (by omega), hpre j hjlt,
        cellFlipFlag, if_neg (by omega)]
      rw [if_neg (by omega), if_pos (by omega)]
    · rcases Nat.eq_or_lt_of_le hjge with hjeq | hjgt
      · subst hjeq
        rw [hstep, hcells,
          getCell_condFlipCell_self _ _ _ (by rw [hlen, hs]; omega),
          hsuf (N - 2) le_rfl, hprev, cellFlipFlag, if_neg (by omega)]
        rw [if_neg (by omega), if_pos le_rfl]
      · rw [hstep, hcells, getCell_condFlipCell_ne _ _ _ _ (by omega),
          hsuf j (by omega)]
        rw [if_neg (by omega), if_neg (by omega)]

/-- Two lists of booleans with the same length and the same cells are equal. -/
lemma getD_ext {l r : List Bool} (hlen : l.length = r.length)
    (h : ∀ j, getCell l j = getCell r j) : l = r := by
  apply List.ext_getElem?
  intro n
  rcases Nat.lt_or_ge n l.length with hn | hn
  · have hl := List.getElem?_eq_getElem hn
    have hr := List.getElem?_eq_getElem (hlen ▸ hn)
    have hc := h n
    rw [getCell, getCell, List.getD_eq_getElem?_getD, List.getD_eq_getElem?_getD,
      hl, hr] at hc
    rw [hl, hr]
    simpa using hc
  · rw [List.getElem?_eq_none hn, List.getElem?_eq_none (by omega)]

/-! ## Claim theorems -/

/-- C9: for every initial state, one call of `automaton_step` leaves cell 0
dead: the first pending write (src/main.c line 108, first iteration) flips
cell 0 exactly when `prev_result`, which was initialized to cell 0's own
pre-step value (line 102), is true — so a live cell 0 is cleared and a dead
cell 0 stays dead. -/
theorem step_clears_cell_zero (N : ℕ) (pflip_rules s : List Bool)
    (hN : 3 ≤ N) (hs : s.length = N) :
    cellFlipFlag s pflip_rules 0 = getCell s 0 ∧
    getCell (automaton_stepCells N pflip_rules s) 0 = false := by
  refine ⟨rfl, ?_⟩
  rw [getCell_automaton_stepCells N pflip_rules s hN hs 0, if_pos rfl]

/-- Witness for C9 at a concrete live-cell-0 input. -/
theorem step_clears_cell_zero_witness :
    (3 ≤ 3 ∧ [true, false, false].length = 3) ∧
    (cellFlipFlag [true, false, false] RULE110 0 = getCell [true, false, false] 0 ∧
      getCell (automaton_stepCells 3 RULE110 [true, false, false]) 0 = false) :=
  ⟨⟨by decide, by decide⟩,
    step_clears_cell_zero 3 RULE110 [true, false, false] (by decide) (by decide)⟩

set_option maxRecDepth 8000

/-- C2 (code bug): on the seed whose blocks are `{0b10000000, 0, 0}` — cell 0
alive, all others dead — one `automaton_step` with the source's rule table
changes cell 0 from alive to dead, although the source's own comment
(src/main.c line 101, "the first cell will stay the same") and the spec's
boundary policy both promise it never changes. -/
theorem boundary_cell_zero_changed :
    cellOf [128, 0, 0] 0 = true ∧
    cellOf (automaton_step [128, 0, 0] RULE110) 0 = false := by
  constructor
  · decide
  · decide

/-- C1 (code bug): the in-place step and the spec's double-buffered
fixed-boundary reference disagree on any seed whose cell 0 is alive, already
after one generation and at the smallest row length: the in-place step
clears cell 0 while the reference preserves it. -/
theorem inplace_step_differs_from_reference :
    automaton_stepCells 3 RULE110 [true, false, false] = [false, false, false] ∧
    reference_step 3 RULE110 [true, false, false] = [true, false, false] := by
  constructor
  · decide
  · decide

/-- One step maps the all-dead row to itself. -/
lemma stepCells_replicate_false (N : ℕ) (hN : 3 ≤ N) :
    automaton_stepCells N RULE110 (List.replicate N false) = List.replicate N false := by
  have hrep : ∀ i, getCell (List.replicate N false) i = false := by
    intro i
    simp [getCell, List.getD_eq_getElem?_getD, List.getElem?_replicate]
    split <;> rfl
  apply getD_ext
  · rw [length_automaton_stepCells N RULE110 _ (List.length_replicate N false),
      List.length_replicate]
  · intro j
    rw [getCell_automaton_stepCells N RULE110 _ hN (List.length_replicate N false) j,
      hrep j]
    split
    · rfl
    · split
      · have heval : evalCell (List.replicate N false) (j - 1) j (j + 1) RULE110 = false := by
          unfold evalCell
          rw [hrep, hrep, hrep]
          rfl
        rw [heval]
        rfl
      · rfl

/-- C6: the all-dead row is a fixed point: for every row length `N ≥ 3` and
every generation count `k`, iterating `automaton_step` with the rule-110
table on the all-zero row returns the all-zero row (the table sends
neighborhood 000 to "no flip"). -/
theorem all_dead_fixed_point (N k : ℕ) (hN : 3 ≤ N) :
    (fun t => automaton_stepCells N RULE110 t)^[k] (List.replicate N false) =
      List.replicate N false := by
  induction k with
  | zero => rfl
  | succ k ih =>
    rw [Function.iterate_succ_apply, stepCells_replicate_false N hN, ih]

/-- Witness for C6 at `N = 4`, two generations. -/
theorem all_dead_fixed_point_witness :
    3 ≤ 4 ∧
    (fun t => automaton_stepCells 4 RULE110 t)^[2] (List.replicate 4 false) =
      List.replicate 4 false :=
  ⟨by decide, all_dead_fixed_point 4 2 (by decide)⟩

/-- C3 counterexample: for neighborhood code 2 (window `0,1,0`) the table
entry is `false`, but stepping a 3-cell window holding that neighborhood
leaves the center cell alive (`true`): the table entry is not the center
cell's next-generation value. -/
theorem rule_entry_is_not_next_state :
    RULE110.getD 2 false = false ∧
    getCell (automaton_stepCells 3 RULE110 [false, true, false]) 1 = true := by
  constructor
  · decide
  · decide

/-- C3 as amended: the table entry for a neighborhood code is the *flip*
indicator for the center cell, not its next value: stepping a 3-cell window
gives the center's old value xor-ed with the table entry, and that xor equals
the standard rule-110 next-generation value of the center. -/
theorem rule_table_flip_semantics (l c r : Bool) :
    getCell (automaton_stepCells 3 RULE110 [l, c, r]) 1 =
      xor c (RULE110.getD ((cond l 1 0) * 4 + (cond c 1 0) * 2 + (cond r 1 0)) false) ∧
    xor c (RULE110.getD ((cond l 1 0) * 4 + (cond c 1 0) * 2 + (cond r 1 0)) false) =
      RULE110_NEXT.getD ((cond l 1 0) * 4 + (cond c 1 0) * 2 + (cond r 1 0)) false := by
  cases l <;> cases c <;> cases r <;> exact ⟨by decide, by decide⟩

/-- C4: when the loop is about to run the iteration with counter `i = k + 3`
(the state after `k` executed iterations), the window views sit at cells
`k`, `k + 1`, `k + 2`, and every cell from index `k` on — in particular the
one at `left` — still holds its pre-step (previous generation) value: the
pending write of an iteration only ever touches the cell that just left the
window, so writes trail reads by exactly one step. -/
theorem window_reads_previous_generation (N : ℕ) (pflip_rules s : List Bool)
    (k : ℕ) (hs : s.length = N) (hk : k + 3 ≤ N) :
    (loopStateC pflip_rules s k).left = k ∧
    (loopStateC pflip_rules s k).center = k + 1 ∧
    (loopStateC pflip_rules s k).right = k + 2 ∧
    (∀ j, k ≤ j → getCell (loopStateC pflip_rules s k).cells j = getCell s j) := by
  obtain ⟨-, h1, h2, h3, -, hsuf, -⟩ := loopStateC_spec pflip_rules s k (by omega)
  exact ⟨h1, h2, h3, hsuf⟩

/-- Witness for C4: concrete loop state (after one iteration on an all-alive
row of four cells) whose whole window still reads seed values. -/
theorem window_reads_previous_generation_witness :
    ([true, true, true, true].length = 4 ∧ 1 + 3 ≤ 4) ∧
    (loopStateC RULE110 [true, true, true, true] 1).left = 1 ∧
    getCell (loopStateC RULE110 [true, true, true, true] 1).cells 1 =
      getCell [true, true, true, true] 1 :=
  ⟨⟨by decide, by decide⟩,
    (window_reads_previous_generation 4 RULE110 [true, true, true, true] 1
      (by decide) (by decide)).1,
    (window_reads_previous_generation 4 RULE110 [true, true, true, true] 1
      (by decide) (by decide)).2.2.2 1 le_rfl⟩

/-- C5 counterexample: in the seed `{0, 1, 2}` of `main` (src/main.c line
158), cell 15 is alive — block 1 holds `0b00000001`, whose set bit is at
position 0, i.e. cell `1 * 8 + (8 - 1 - 0) = 15` — so cell 22 is not the
only live seed cell. -/
theorem seed_cell_fifteen_alive :
    cellOf [0, 1, 2] 15 = true ∧ (15 : ℕ) ≠ 22 := by
  constructor
  · decide
  · decide

/-- C5 as amended: the `main` seed `{0, 1, 2}` has exactly cells 15 and 22
alive (block1 = 0b00000001 → cell 15, block2 = 0b00000010 → cell 22); after
one `automaton_step` with rule 110 the live cells are exactly 14, 15, 21 and
22 — in particular 21 and 22 are both alive — and cells 23 and 0 are
unchanged. -/
theorem seed_and_first_step_scenario :
    (List.range 24).filter (fun i => cellOf [0, 1, 2] i) = [15, 22] ∧
    automaton_step [0, 1, 2] RULE110 = [0, 3, 6] ∧
    (List.range 24).filter (fun i => cellOf (automaton_step [0, 1, 2] RULE110) i) =
      [14, 15, 21, 22] ∧
    cellOf (automaton_step [0, 1, 2] RULE110) 23 = cellOf [0, 1, 2] 23 ∧
    cellOf (automaton_step [0, 1, 2] RULE110) 0 = cellOf [0, 1, 2] 0 := by
  refine ⟨by decide, by decide, by decide, by decide, by decide⟩

/-- C7 counterexample: an access through the view of cell index 24 — out of
range for the 24-cell state — passes every assertion of the bit read and
flip operations (their only assertion is the null check on the view
pointer), so an out-of-range index is NOT surfaced as an assertion
failure. -/
theorem out_of_range_passes_assertions :
    bit_view_in_range (viewOf 24) = false ∧
    (get_bit_checked [0, 1, 2] (some (viewOf 24))).isSome = true ∧
    (bit_flip_checked [0, 1, 2] (some (viewOf 24))).isSome = true := by
  refine ⟨by decide, rfl, rfl⟩

/-- C7 as amended: `get_bit` and `bit_flip` assert only that the view
pointer is non-null; with any non-null view they return a plain value —
never a result-typed error — whatever the index denotes, and only a null
view fails the assertion. -/
theorem assertions_check_only_nullness (s : List ℕ) (v : bit_view) :
    (get_bit_checked s (some v)).isSome = true ∧
    (bit_flip_checked s (some v)).isSome = true ∧
    get_bit_checked s none = none ∧
    bit_flip_checked s none = none :=
  ⟨rfl, rfl, rfl, rfl⟩

/-- Window positions of the instrumented loop are determined by the
iteration count alone: after `k` iterations they sit at the views of cell
indices `k`, `k + 1`, `k + 2`. -/
lemma loopStateT_views (pflip_rules : List Bool) (s : List ℕ) (k : ℕ) :
    (loopStateT pflip_rules s k).left = viewOf k ∧
    (loopStateT pflip_rules s k).center = viewOf (k + 1) ∧
    (loopStateT pflip_rules s k).right = viewOf (k + 2) := by
  induction k with
  | zero => exact ⟨rfl, rfl, rfl⟩
  | succ k ih =>
    refine ⟨ih.2.1, ih.2.2, ?_⟩
    show (⟨(k + 3) / BLOCK_SIZE, BLOCK_SIZE - 1 - (k + 3) % BLOCK_SIZE⟩ : bit_view) =
      viewOf (k + 1 + 2)
    have : k + 1 + 2 = k + 3 := by omega
    rw [this]
    rfl

/-- Every view dereferenced during the first `k` loop iterations is the view
of some cell index `≤ k + 1`. -/
lemma loopStateT_derefs (pflip_rules : List Bool) (s : List ℕ) (k : ℕ) :
    ∀ v ∈ (loopStateT pflip_rules s k).derefs, ∃ j, j ≤ k + 1 ∧ v = viewOf j := by
  induction k with
  | zero =>
    intro v hv
    simp [loopStateT] at hv
    exact ⟨0, by omega, hv⟩
  | succ k ih =>
    intro v hv
    obtain ⟨hl, hc, hr⟩ := loopStateT_views pflip_rules s k
    have hv' : v ∈ (loopStateT pflip_rules s k).derefs ++
        [(loopStateT pflip_rules s k).left, (loopStateT pflip_rules s k).center,
          (loopStateT pflip_rules s k).right] ++
        (if (loopStateT pflip_rules s k).prev then [(loopStateT pflip_rules s k).left]
          else []) := hv
    rw [List.mem_append, List.mem_append] at hv'
    rcases hv' with (hv' | hv') | hv'
    · obtain ⟨j, hj, hje⟩ := ih v hv'
      exact ⟨j, by omega, hje⟩
    · rw [hl, hc, hr] at hv'
      simp only [List.mem_cons, List.not_mem_nil, or_false] at hv'
      rcases hv' with h | h | h
      · exact ⟨k, by omega, h⟩
      · exact ⟨k + 1, by omega, h⟩
      · exact ⟨k + 2, by omega, h⟩
    · split at hv'
      · rw [hl, List.mem_singleton] at hv'
        exact ⟨k, by omega, hv'⟩
      · cases hv'

/-- A view of a cell index below `STATE_SIZE` lies inside the state array. -/
lemma viewOf_in_range (j : ℕ) (hj : j < STATE_SIZE) :
    bit_view_in_range (viewOf j) = true := by
  have hA : ARRAY_SIZE = 3 := by decide
  have hB : BLOCK_SIZE = 8 := rfl
  have hS : STATE_SIZE = 24 := rfl
  rw [hS] at hj
  unfold bit_view_in_range viewOf
  rw [hA, hB]
  simp only [Bool.and_eq_true, decide_eq_true_eq]
  exact ⟨by omega, by omega⟩

/-- C10: during a call of `automaton_step`, every view whose block pointer is
dereferenced — by `get_bit` inside `evaluate` and for the initial
`prev_result`, or by `bit_flip` via `conditional_bit_flip` — lies inside the
`ARRAY_SIZE`-block state array with a bit position below `BLOCK_SIZE`, while
the `right_view` computed in the final loop iteration (`i = STATE_SIZE`)
points exactly one block past the end of the array and is never
dereferenced. -/
theorem step_dereferences_in_range (state_array : List ℕ) (pflip_rules : List Bool) :
    (automaton_step_derefs state_array pflip_rules).all
      (fun v => bit_view_in_range v) = true ∧
    automaton_step_final_right state_array pflip_rules =
      ⟨ARRAY_SIZE, BLOCK_SIZE - 1⟩ := by
  constructor
  · rw [List.all_eq_true]
    intro v hv
    have hv' : v ∈ (loopStateT pflip_rules state_array (STATE_SIZE - 2)).derefs ++
        (if (loopStateT pflip_rules state_array (STATE_SIZE - 2)).prev then
          [(loopStateT pflip_rules state_array (STATE_SIZE - 2)).left] else []) := hv
    rw [List.mem_append] at hv'
    rcases hv' with hv' | hv'
    · obtain ⟨j, hj, hje⟩ := loopStateT_derefs pflip_rules state_array (STATE_SIZE - 2) v hv'
      subst hje
      exact viewOf_in_range j (by unfold STATE_SIZE at *; omega)
    · split at hv'
      · rw [List.mem_singleton] at hv'
        subst hv'
        rw [(loopStateT_views pflip_rules state_array (STATE_SIZE - 2)).1]
        exact viewOf_in_range _ (by unfold STATE_SIZE; omega)
      · cases hv'
  · show (loopStateT pflip_rules state_array (STATE_SIZE - 2)).right = _
    rw [(loopStateT_views pflip_rules state_array (STATE_SIZE - 2)).2.2]
    rfl

/-- The source's bit read agrees with `Nat.testBit`. -/
lemma bitOf_testBit (b p : ℕ) : bitOf b p = Nat.testBit b p := by
  unfold bitOf
  rw [Nat.testBit_to_div_mod]
  simp [Nat.and_one_is_mod, Nat.shiftRight_eq_div_pow]

/-- The glyph `print_block` chooses by masking (`block & mask`) is the glyph
of the corresponding bit. -/
lemma glyph_eq (b m p : ℕ) (hm : m = 1 <<< p) :
    (if b &&& m ≠ 0 then '#' else ' ') = (if bitOf b p then '#' else ' ') := by
  subst hm
  rw [Nat.one_shiftLeft, Nat.and_two_pow, bitOf_testBit]
  cases h : Nat.testBit b p <;> simp [h, Nat.pos_iff_ne_zero]

/-- The `print_block` while loop, unfolded for a full 8-bit block: seven
glyph-and-space pairs for masks 128 down to 2. -/
lemma print_block_loop_128 (b : ℕ) :
    print_block_loop b 128 1 =
      [(if b &&& 128 ≠ 0 then '#' else ' '), ' ',
       (if b &&& 64 ≠ 0 then '#' else ' '), ' ',
       (if b &&& 32 ≠ 0 then '#' else ' '), ' ',
       (if b &&& 16 ≠ 0 then '#' else ' '), ' ',
       (if b &&& 8 ≠ 0 then '#' else ' '), ' ',
       (if b &&& 4 ≠ 0 then '#' else ' '), ' ',
       (if b &&& 2 ≠ 0 then '#' else ' '), ' '] := by
  rw [print_block_loop.eq_def]; norm_num [Nat.shiftRight_one]
  rw [print_block_loop.eq_def]; norm_num [Nat.shiftRight_one]
  rw [print_block_loop.eq_def]; norm_num [Nat.shiftRight_one]
  rw [print_block_loop.eq_def]; norm_num [Nat.shiftRight_one]
  rw [print_block_loop.eq_def]; norm_num [Nat.shiftRight_one]
  rw [print_block_loop.eq_def]; norm_num [Nat.shiftRight_one]
  rw [print_block_loop.eq_def]; norm_num [Nat.shiftRight_one]
  rw [print_block_loop.eq_def]; norm_num [Nat.shiftRight_one]

/-- Printing a full block renders exactly its eight cells, most significant
bit first, in the spec's single-space-separated glyph format. -/
lemma print_block_eight (b : ℕ) :
    print_block b BLOCK_SIZE =
      renderRow [bitOf b 7, bitOf b 6, bitOf b 5, bitOf b 4,
        bitOf b 3, bitOf b 2, bitOf b 1, bitOf b 0] := by
  have h1 : print_block b BLOCK_SIZE =
      [(if b &&& 128 ≠ 0 then '#' else ' '), ' ',
       (if b &&& 64 ≠ 0 then '#' else ' '), ' ',
       (if b &&& 32 ≠ 0 then '#' else ' '), ' ',
       (if b &&& 16 ≠ 0 then '#' else ' '), ' ',
       (if b &&& 8 ≠ 0 then '#' else ' '), ' ',
       (if b &&& 4 ≠ 0 then '#' else ' '), ' ',
       (if b &&& 2 ≠ 0 then '#' else ' '), ' ',
       (if b &&& 1 ≠ 0 then '#' else ' ')] := by
    unfold print_block
    have hm : (1 : ℕ) <<< (BLOCK_SIZE - 1) = 128 := rfl
    have he : (1 : ℕ) <<< (BLOCK_SIZE - BLOCK_SIZE) = 1 := rfl
    rw [hm, he, print_block_loop_128]
    rfl
  have h2 : renderRow [bitOf b 7, bitOf b 6, bitOf b 5, bitOf b 4,
      bitOf b 3, bitOf b 2, bitOf b 1, bitOf b 0] =
      [(if bitOf b 7 then '#' else ' '), ' ',
       (if bitOf b 6 then '#' else ' '), ' ',
       (if bitOf b 5 then '#' else ' '), ' ',
       (if bitOf b 4 then '#' else ' '), ' ',
       (if bitOf b 3 then '#' else ' '), ' ',
       (if bitOf b 2 then '#' else ' '), ' ',
       (if bitOf b 1 then '#' else ' '), ' ',
       (if bitOf b 0 then '#' else ' ')] := rfl
  rw [h1, h2]
  rw [glyph_eq b 128 7 rfl, glyph_eq b 64 6 rfl, glyph_eq b 32 5 rfl,
    glyph_eq b 16 4 rfl, glyph_eq b 8 3 rfl, glyph_eq b 4 2 rfl,
    glyph_eq b 2 1 rfl, glyph_eq b 1 0 rfl]

/-- The spec's render format splits across a concatenation: the two sides
stay single-space separated at the junction. -/
lemma renderRow_append (l1 l2 : List Bool) (h1 : l1 ≠ []) (h2 : l2 ≠ []) :
    renderRow (l1 ++ l2) = renderRow l1 ++ ' ' :: renderRow l2 := by
  induction l1 with
  | nil => exact absurd rfl h1
  | cons c t ih =>
    cases t with
    | nil =>
      cases l2 with
      | nil => exact absurd rfl h2
      | cons d t2 => simp [renderRow]
    | cons c2 t2 =>
      calc renderRow ((c :: c2 :: t2) ++ l2)
          = (if c then '#' else ' ') :: ' ' :: renderRow ((c2 :: t2) ++ l2) := rfl
        _ = (if c then '#' else ' ') :: ' ' ::
              (renderRow (c2 :: t2) ++ ' ' :: renderRow l2) := by
            rw [ih (by simp)]
        _ = renderRow (c :: c2 :: t2) ++ ' ' :: renderRow l2 := rfl

/-- `pretty_print` on a three-block state: two full blocks each followed by
the separating space, the last block (with `remaining_bits = BLOCK_SIZE`,
since `STATE_SIZE % BLOCK_SIZE = 0`), and the newline. -/
lemma pretty_print_three (b0 b1 b2 : ℕ) :
    pretty_print [b0, b1, b2] =
      print_block b0 BLOCK_SIZE ++ ' ' ::
        (print_block b1 BLOCK_SIZE ++ ' ' ::
          (print_block b2 BLOCK_SIZE ++ ['\n'])) := by
  show (List.flatten ((List.range (ARRAY_SIZE - 1)).map
      (fun i => print_block ([b0, b1, b2].getD i 0) BLOCK_SIZE ++ [' ']))) ++
    print_block ([b0, b1, b2].getD (ARRAY_SIZE - 1) 0)
      (if STATE_SIZE % BLOCK_SIZE ≠ 0 then STATE_SIZE % BLOCK_SIZE else BLOCK_SIZE) ++
    ['\n'] = _
  have hr : ARRAY_SIZE - 1 = 2 := by decide
  have hb : (if STATE_SIZE % BLOCK_SIZE ≠ 0 then STATE_SIZE % BLOCK_SIZE else BLOCK_SIZE) =
      BLOCK_SIZE := by decide
  rw [hr, hb]
  have hrange : List.range 2 = [0, 1] := by decide
  rw [hrange]
  simp [List.append_assoc]

/-- C8: rendering a state produces one line in which each of the
`STATE_SIZE` declared cells appears as exactly one glyph (`#` alive, space
dead), consecutive glyphs are separated by exactly one space — including
across block boundaries — and nothing beyond the declared cells is emitted
(proved against `pretty_print` with `print_block` as the callee the source
names `print_as_characters`; see the definition of `pretty_print`). -/
theorem render_format (s : List ℕ) (hs : s.length = ARRAY_SIZE) :
    pretty_print s = renderRow (unpack s) ++ ['\n'] := by
  have hA : ARRAY_SIZE = 3 := by decide
  rw [hA] at hs
  match s, hs with
  | [b0, b1, b2], _ =>
    have hunp : unpack [b0, b1, b2] =
        [bitOf b0 7, bitOf b0 6, bitOf b0 5, bitOf b0 4,
         bitOf b0 3, bitOf b0 2, bitOf b0 1, bitOf b0 0] ++
        ([bitOf b1 7, bitOf b1 6, bitOf b1 5, bitOf b1 4,
          bitOf b1 3, bitOf b1 2, bitOf b1 1, bitOf b1 0] ++
         [bitOf b2 7, bitOf b2 6, bitOf b2 5, bitOf b2 4,
          bitOf b2 3, bitOf b2 2, bitOf b2 1, bitOf b2 0]) := rfl
    rw [hunp, renderRow_append _ _ (by simp) (by simp),
      renderRow_append _ _ (by simp) (by simp),
      ← print_block_eight b0, ← print_block_eight b1, ← print_block_eight b2,
      pretty_print_three]
    simp [List.append_assoc]

/-- Witness for C8 at the `main` seed. -/
theorem render_format_witness :
    [0, 1, 2].length = ARRAY_SIZE ∧
    pretty_print [0, 1, 2] = renderRow (unpack [0, 1, 2]) ++ ['\n'] :=
  ⟨by decide, render_format [0, 1, 2] (by decide)⟩

/-! ## Bridge: the block-level step is the cell-level step under unpacking -/

/-- Reading an unpacked cell is reading the packed bit. -/
lemma getCell_unpack (s : List ℕ) (j : ℕ) (hj : j < STATE_SIZE) :
    getCell (unpack s) j = cellOf s j := by
  unfold getCell unpack
  rw [List.getD_eq_getElem?_getD, List.getElem?_map, List.getElem?_range hj]
  rfl

lemma length_unpack (s : List ℕ) : (unpack s).length = STATE_SIZE := by
  unfold unpack
  simp

lemma getCell_of_length_le {t : List Bool} {j : ℕ} (h : t.length ≤ j) :
    getCell t j = false := by
  unfold getCell
  rw [List.getD_eq_getElem?_getD, List.getElem?_eq_none h]
  rfl

lemma get_bit_eq_testBit (s : List ℕ) (v : bit_view) :
    get_bit s v = (s.getD v.pblock 0).testBit v.position := by
  unfold get_bit
  rw [bitOf_testBit]

/-- `bit_flip` through the index-to-view mapping negates exactly the
targeted cell: the xor with `1 << position` (truncated to the block width)
changes bit `position` of the addressed block and nothing else. -/
lemma cellOf_bit_flip (s : List ℕ) (hs : s.length = ARRAY_SIZE) (i j : ℕ)
    (hi : i < STATE_SIZE) (hj : j < STATE_SIZE) :
    cellOf (bit_flip s (viewOf i)) j = if i = j then !(cellOf s j) else cellOf s j := by
  have hS : STATE_SIZE = 24 := rfl
  have hA : ARRAY_SIZE = 3 := by decide
  rw [hS] at hi hj
  rw [hA] at hs
  unfold cellOf bit_flip viewOf
  rw [get_bit_eq_testBit, get_bit_eq_testBit]
  simp only [BLOCK_SIZE]
  rcases Nat.decEq (i / 8) (j / 8) with hb | hb
  · have hij : i ≠ j := by intro h; exact hb (by rw [h])
    rw [if_neg hij, List.getD_eq_getElem?_getD, List.getElem?_set_ne hb,
      ← List.getD_eq_getElem?_getD]
  · rw [List.getD_eq_getElem?_getD, ← hb, List.getElem?_set_self (by rw [hs]; omega)]
    simp only [Option.getD_some]
    rw [Nat.one_shiftLeft, Nat.testBit_mod_two_pow, Nat.testBit_xor, Nat.testBit_two_pow]
    have hq : 8 - 1 - j % 8 < 8 := by omega
    rw [decide_eq_true hq]
    rcases Nat.decEq i j with hij | hij
    · rw [if_neg hij]
      have hp : ¬(8 - 1 - i % 8 = 8 - 1 - j % 8) := by
        intro h
        have hmod : i % 8 = j % 8 := by omega
        have hdiv := hb
        omega
      rw [decide_eq_false hp]
      rw [hb]
      simp
    · rw [if_pos hij, hij]
      simp

lemma length_conditional_bit_flip (s : List ℕ) (v : bit_view) (f : Bool) :
    (conditional_bit_flip s v f).length = s.length := by
  unfold conditional_bit_flip bit_flip
  split <;> simp

/-- `conditional_bit_flip` commutes with unpacking: at the cell level it is
exactly `condFlipCell` at the view's cell index. -/
lemma unpack_conditional_bit_flip (s : List ℕ) (hs : s.length = ARRAY_SIZE) (i : ℕ)
    (hi : i < STATE_SIZE) (f : Bool) :
    unpack (conditional_bit_flip s (viewOf i) f) = condFlipCell (unpack s) i f := by
  apply getD_ext
  · rw [length_unpack, length_condFlipCell, length_unpack]
  · intro j
    show getCell _ j = getCell _ j
    rcases Nat.lt_or_ge j STATE_SIZE with hj | hj
    · cases f with
      | false =>
        rw [show conditional_bit_flip s (viewOf i) false = s from rfl,
          show condFlipCell (unpack s) i false = unpack s from rfl]
      | true =>
        rw [show conditional_bit_flip s (viewOf i) true = bit_flip s (viewOf i) from rfl,
          show condFlipCell (unpack s) i true = flipCell (unpack s) i from rfl]
        rw [getCell_unpack _ _ hj, cellOf_bit_flip s hs i j hi hj]
        have hflip : getCell (flipCell (unpack s) i) j =
            if i = j then !(getCell (unpack s) j) else getCell (unpack s) j := by
          rcases Nat.decEq i j with hij | hij
          · rw [if_neg hij]
            have h := getCell_condFlipCell_ne (unpack s) i j true hij
            rw [show condFlipCell (unpack s) i true = flipCell (unpack s) i from rfl] at h
            exact h
          · subst hij
            rw [if_pos rfl]
            have h := getCell_condFlipCell_self (unpack s) i true
              (by rw [length_unpack]; exact hi)
            rw [show condFlipCell (unpack s) i true = flipCell (unpack s) i from rfl] at h
            rw [h, Bool.xor_true]
        rw [hflip]
        rcases Nat.decEq i j with hij | hij
        · rw [if_neg hij, if_neg hij, getCell_unpack _ _ hj]
        · subst hij
          rw [if_pos rfl, if_pos rfl, getCell_unpack _ _ hj]
    · rw [getCell_of_length_le (by rw [length_unpack]; exact hj),
        getCell_of_length_le (by rw [length_condFlipCell, length_unpack]; exact hj)]

/-- `evaluate` on packed views is `evalCell` on the unpacked cells. -/
lemma evaluate_unpack (s : List ℕ) (l c r : ℕ) (pflip_rules : List Bool)
    (hl : l < STATE_SIZE) (hc : c < STATE_SIZE) (hr : r < STATE_SIZE) :
    evaluate s (viewOf l) (viewOf c) (viewOf r) pflip_rules =
      evalCell (unpack s) l c r pflip_rules := by
  unfold evaluate evalCell
  rw [getCell_unpack _ _ hl, getCell_unpack _ _ hc, getCell_unpack _ _ hr]
  rfl

/-- Window positions of the block-level loop are the views of cell indices
`k`, `k + 1`, `k + 2` after `k` iterations. -/
lemma loopStateB_views (pflip_rules : List Bool) (s : List ℕ) (k : ℕ) :
    (loopStateB pflip_rules s k).left = viewOf k ∧
    (loopStateB pflip_rules s k).center = viewOf (k + 1) ∧
    (loopStateB pflip_rules s k).right = viewOf (k + 2) := by
  induction k with
  | zero => exact ⟨rfl, rfl, rfl⟩
  | succ k ih =>
    refine ⟨ih.2.1, ih.2.2, ?_⟩
    show (⟨(k + 3) / BLOCK_SIZE, BLOCK_SIZE - 1 - (k + 3) % BLOCK_SIZE⟩ : bit_view) =
      viewOf (k + 1 + 2)
    have h : k + 1 + 2 = k + 3 := by omega
    rw [h]
    rfl

/-- The block-level and cell-level loops stay in lockstep: after any number
of iterations the block state unpacks to the cell state and the pending
results agree. -/
lemma loopStateB_bridge (pflip_rules : List Bool) (s : List ℕ)
    (hs : s.length = ARRAY_SIZE) (k : ℕ) (hk : k ≤ STATE_SIZE - 2) :
    (loopStateB pflip_rules s k).state.length = ARRAY_SIZE ∧
    unpack (loopStateB pflip_rules s k).state = (loopStateC pflip_rules (unpack s) k).cells ∧
    (loopStateB pflip_rules s k).prev = (loopStateC pflip_rules (unpack s) k).prev := by
  induction k with
  | zero =>
    refine ⟨hs, rfl, ?_⟩
    show get_bit s ⟨0, BLOCK_SIZE - 1⟩ = getCell (unpack s) 0
    rw [getCell_unpack s 0 (by decide)]
    rfl
  | succ k ih =>
    obtain ⟨ihlen, ihstate, ihprev⟩ := ih (by omega)
    obtain ⟨hBl, hBc, hBr⟩ := loopStateB_views pflip_rules s k
    obtain ⟨-, hCl, hCc, hCr, -, -, -⟩ :=
      loopStateC_spec pflip_rules (unpack s) k
        (by rw [length_unpack]; unfold STATE_SIZE at *; omega)
    have hk24 : k + 2 < STATE_SIZE := by unfold STATE_SIZE at *; omega
    constructor
    · show (conditional_bit_flip (loopStateB pflip_rules s k).state
        (loopStateB pflip_rules s k).left (loopStateB pflip_rules s k).prev).length = ARRAY_SIZE
      rw [length_conditional_bit_flip, ihlen]
    constructor
    · show unpack (conditional_bit_flip (loopStateB pflip_rules s k).state
        (loopStateB pflip_rules s k).left (loopStateB pflip_rules s k).prev) =
        condFlipCell (loopStateC pflip_rules (unpack s) k).cells
          (loopStateC pflip_rules (unpack s) k).left (loopStateC pflip_rules (unpack s) k).prev
      rw [hBl, hCl, ← ihstate, ← ihprev,
        unpack_conditional_bit_flip _ ihlen k (by unfold STATE_SIZE at *; omega)]
    · show evaluate (loopStateB pflip_rules s k).state (loopStateB pflip_rules s k).left
        (loopStateB pflip_rules s k).center (loopStateB pflip_rules s k).right pflip_rules =
        evalCell (loopStateC pflip_rules (unpack s) k).cells
          (loopStateC pflip_rules (unpack s) k).left (loopStateC pflip_rules (unpack s) k).center
          (loopStateC pflip_rules (unpack s) k).right pflip_rules
      rw [hBl, hBc, hBr, hCl, hCc, hCr, ← ihstate,
        evaluate_unpack _ k (k + 1) (k + 2) pflip_rules (by omega) (by omega) hk24]

/-- The block-level `automaton_step` of the source and its cell-level image
compute the same next generation: unpacking commutes with stepping.  This is
the faithfulness theorem connecting the two embeddings; the parametric
`automaton_stepCells` instantiated at `N = STATE_SIZE` is exactly the
source's step on packed blocks. -/
theorem unpack_automaton_step (pflip_rules : List Bool) (s : List ℕ)
    (hs : s.length = ARRAY_SIZE) :
    unpack (automaton_step s pflip_rules) =
      automaton_stepCells STATE_SIZE pflip_rules (unpack s) := by
  obtain ⟨hlen, hstate, hprev⟩ := loopStateB_bridge pflip_rules s hs (STATE_SIZE - 2) le_rfl
  obtain ⟨hBl, -, -⟩ := loopStateB_views pflip_rules s (STATE_SIZE - 2)
  obtain ⟨-, hCl, -, -, -, -, -⟩ :=
    loopStateC_spec pflip_rules (unpack s) (STATE_SIZE - 2) (by rw [length_unpack]; omega)
  show unpack (conditional_bit_flip _ _ _) = condFlipCell _ _ _
  rw [hBl, hCl, ← hstate, ← hprev,
    unpack_conditional_bit_flip _ hlen (STATE_SIZE - 2) (by unfold STATE_SIZE; omega)]
